import Mathlib

/-!
Shallow embedding of the llama-cord multi-agent conversation bot
(`src/cogs/agent.py`, `src/core/utils.py`) and proofs about it.

Strings manipulated character by character (the message chunker) are
modelled as `List Char`; Python's `str.lower` and `str.strip` are
embedded for the ASCII range, which covers every character the claims
exercise.
-/

set_option maxRecDepth 20000

namespace LlamaCord

/-! ## Python string primitives -/

/-- Whitespace characters removed by Python's `str.strip()` (ASCII range). -/
def isPySpace (c : Char) : Bool :=
  c = ' ' || c = '\t' || c = '\n' || c = '\x0d' || c = '\x0b' || c = '\x0c'

/-- ASCII uppercase test (`'A'..'Z'`), via code points. -/
def isUpperA (c : Char) : Bool :=
  65 ≤ c.toNat && c.toNat ≤ 90

/-- Python's `str.lower()` on one character, ASCII range: uppercase letters
are shifted down into `'a'..'z'`, everything else is unchanged. -/
def pyLowerChar (c : Char) : Char :=
  if isUpperA c then Char.ofNat (c.toNat + 32) else c

/-- Python's `str.lower()` on a string (ASCII range). -/
def pyLower (s : String) : String :=
  ⟨s.data.map pyLowerChar⟩

/-- Python's `str.strip()`: drop whitespace from both ends. -/
def pyStrip (l : List Char) : List Char :=
  ((l.dropWhile isPySpace).reverse.dropWhile isPySpace).reverse

/-- Python's `content.rfind(' ', 0, stop)`: the index of the last `' '`
among the first `stop` characters, or `none` (Python returns `-1`). -/
def lastSpaceIdx : List Char → Nat → Option Nat
  | [], _ => none
  | _, 0 => none
  | c :: cs, n + 1 =>
    match lastSpaceIdx cs n with
    | some j => some (j + 1)
    | none => if c = ' ' then some 0 else none

/-- Replace the first element satisfying `p` by its image under `f`; models a
Python in-place mutation of the first object produced by a generator. -/
def replaceFirst (p : α → Bool) (f : α → α) : List α → List α
  | [] => []
  | x :: xs => if p x then f x :: xs else x :: replaceFirst p f xs

/-! ## Conversation agent history (`AgentCog.update_chat_history`) -/

/-- One `{role, content}` entry of an agent's rolling chat history. -/
structure ChatMessage where
  role : String
  content : String
deriving DecidableEq

/-- Embeds `AgentCog.update_chat_history`: append the new entry, then keep
only the last 10 entries (`history[-10:]`) when the list exceeds 10. -/
def update_chat_history (history : List ChatMessage) (role content : String) :
    List ChatMessage :=
  let h := history ++ [(⟨role, content⟩ : LlamaCord.ChatMessage)]
  if 10 < h.length then h.drop (h.length - 10) else h

/-! ## Message chunker (`AgentCog.send_chunked_message`)

The splitting loop of `send_chunked_message` is embedded with an explicit
fuel argument bounding the number of iterations; `chunkLoopFuel_congr`
below shows the fuel is immaterial once it exceeds the content length, so
`sendChunks` computes exactly the chunks the Python loop sends. -/

/-- One iteration structure of the `while content:` loop: if the remainder
fits, emit it and stop; otherwise split at the last space within the first
2000 characters (or at 2000 if there is none), emit the prefix, and recurse
on the stripped remainder. -/
def chunkLoopFuel : Nat → List Char → List (List Char)
  | 0, _ => []
  | fuel + 1, content =>
    if content.length ≤ 2000 then
      if content = [] then [] else [content]
    else
      let splitIndex := (lastSpaceIdx content 2000).getD 2000
      content.take splitIndex ::
        chunkLoopFuel fuel (pyStrip (content.drop splitIndex))

/-- Embeds `send_chunked_message`'s chunk computation: content within the
2000-character limit is sent as a single message; otherwise the splitting
loop runs. -/
def sendChunks (content : List Char) : List (List Char) :=
  if content.length ≤ 2000 then [content]
  else chunkLoopFuel (content.length + 1) content

/-- Single-space join of chunks, the reconstruction prescribed by the spec
when every split consumed one space. -/
def joinWithSpace : List (List Char) → List Char
  | [] => []
  | [s] => s
  | s :: ss => s ++ ' ' :: joinWithSpace ss

/-- Interleave segments with the gap that follows each of them. -/
def interleave : List (List Char) → List (List Char) → List Char
  | [], _ => []
  | s :: ss, [] => s ++ interleave ss []
  | s :: ss, g :: gs => s ++ g ++ interleave ss gs

/-- Append `w` to the last gap of a gap list. -/
def appendToLastGap (w : List Char) : List (List Char) → List (List Char)
  | [] => [w]
  | [g] => [g ++ w]
  | g :: gs => g :: appendToLastGap w gs

/-! ## Turn scheduler (`AgentCog.start_conversation`)

Message generation and webhook delivery do not influence which agent speaks
or how many messages are produced, so the scheduler is embedded as the
sequence of speakers: the message count of `start_conversation` is the
length of this sequence.  `random.choice` and `random.shuffle` are modelled
by an oracle; `ValidOracle` states exactly what the Python functions
guarantee (a member of the list, a permutation of the list). -/

/-- Raised as `ApplicationCommandError("No agents created")`. -/
inductive ConvError where
  | noAgents
deriving DecidableEq

/-- Source of the randomness used by `start_conversation`. -/
structure ConvOracle where
  choose : List String → String
  shuffle : Nat → List String → List String

/-- What Python's `random.choice` and `random.shuffle` guarantee. -/
def ValidOracle (o : ConvOracle) : Prop :=
  (∀ l : List String, l ≠ [] → o.choose l ∈ l) ∧
    ∀ n l, (o.shuffle n l).Perm l

/-- Speakers of the `for _ in range(turns)` loop: each round filters out the
previous speaker, optionally shuffles (`orderFn`), lets every remaining
agent speak in that order, and the last speaker of the round carries over. -/
def conversationRounds (agentNames : List String)
    (orderFn : Nat → List String → List String) :
    Nat → String → List String
  | 0, _ => []
  | n + 1, lastSpeaker =>
    let available :=
      orderFn n (agentNames.filter (fun name => name != lastSpeaker))
    available ++
      conversationRounds agentNames orderFn n
        (available.getLastD lastSpeaker)

/-- Embeds `AgentCog.start_conversation`: error when no agents exist, else
the first speaker is the first agent (or a random choice), followed by the
turn loop; the returned speaker list has one entry per delivered message. -/
def startConversation (agentNames : List String) (oracle : ConvOracle)
    (turns : Nat) (randomOrder : Bool) : Except ConvError (List String) :=
  match agentNames with
  | [] => .error .noAgents
  | a :: rest =>
    let first := if randomOrder then oracle.choose (a :: rest) else a
    let orderFn := fun n l => if randomOrder then oracle.shuffle n l else l
    .ok (first :: conversationRounds (a :: rest) orderFn turns first)

/-- Deterministic oracle used to instantiate theorems at concrete inputs. -/
def trivOracle : ConvOracle :=
  ⟨fun l => l.headD "", fun _ l => l⟩

/-! ## Persona template registry (`AgentCog` commands)

`save_bot_config`/`load_bot_config` persistence is last-write-wins on the
in-memory template list, so the commands are embedded as pure functions on
that list. -/

/-- A persona template (`AgentTemplate` dataclass of `core/utils.py`). -/
structure AgentTemplate where
  agent_name : String
  personality : String
  avatar_url : String
  active : Bool
deriving DecidableEq

/-- The two start-up failures of `AgentCog.create_agents`. -/
inductive SimStartError where
  | noActiveTemplates
  | insufficientActiveTemplates
deriving DecidableEq

/-- Number of templates whose `active` flag is set. -/
def countActive (templates : List AgentTemplate) : Nat :=
  (templates.filter (fun t => t.active)).length

/-- Embeds `AgentCog.create_agents`: error when no template is active,
error when more agents are requested than active templates exist, and
otherwise one `(dict key, system prompt)` pair per requested agent drawn
from the active templates by index modulo their count (total indexing via
`getD`; the branch guarantees the index is in range).  The `self.agents`
dict itself is not modelled: the claims about this function concern its
error behaviour. -/
def create_agents (globalSystemPrompt : String)
    (templates : List AgentTemplate) (numAgents : Nat) :
    Except SimStartError (List (String × String)) :=
  let activeTemplates := templates.filter (fun t => t.active)
  if activeTemplates.length = 0 then
    Except.error SimStartError.noActiveTemplates
  else if activeTemplates.length < numAgents then
    Except.error SimStartError.insufficientActiveTemplates
  else
    Except.ok ((List.range numAgents).map fun i =>
      let t := activeTemplates.getD (i % activeTemplates.length)
        ⟨"", "", "", true⟩
      ("agent_" ++ t.agent_name,
        globalSystemPrompt ++ "\n\n" ++ t.personality))

/-- The lookup used by `agent_toggle`:
`t.agent_name.lower() == agent_name.lower()`. -/
def templateMatches (inputName : String) (t : AgentTemplate) : Bool :=
  pyLower t.agent_name == pyLower inputName

/-- Embeds `AgentCog.agent_toggle`: find the first template whose lowered
name equals the lowered input, flip its `active` flag in place, or report
not-found (`none`). -/
def agent_toggle (templates : List AgentTemplate) (inputName : String) :
    Option (List AgentTemplate) :=
  match templates.find? (templateMatches inputName) with
  | some _ => some (replaceFirst (templateMatches inputName)
      (fun t => { t with active := !t.active }) templates)
  | none => none

/-- Not-found failure of `agent_delete`. -/
inductive DeleteError where
  | notFound
deriving DecidableEq

/-- Embeds `AgentCog.agent_delete`: the input name is lowercased, then an
exact (case-sensitive) match against the stored `agent_name` is required;
on success every template with exactly that name is removed. -/
def agent_delete (templates : List AgentTemplate) (inputName : String) :
    Except DeleteError (List AgentTemplate) :=
  match templates.find? (fun t => t.agent_name == pyLower inputName) with
  | none => Except.error DeleteError.notFound
  | some _ =>
    Except.ok (templates.filter (fun t => t.agent_name != pyLower inputName))

/-- Duplicate-name failure of `agent_create`. -/
inductive CreateError where
  | duplicateName
deriving DecidableEq

/-- Embeds `AgentCog.agent_create`: duplicates are checked by exact
(case-sensitive) comparison and the name is stored verbatim, active. -/
def agent_create (templates : List AgentTemplate)
    (agentName personality avatarUrl : String) :
    Except CreateError (List AgentTemplate) :=
  if templates.any (fun t => t.agent_name == agentName) then
    Except.error CreateError.duplicateName
  else
    Except.ok (templates ++ [⟨agentName, personality, avatarUrl, true⟩])

/-! ## Identity/channel binding (`get_or_create_webhook` of `core/utils.py`) -/

/-- A guild webhook: its name, bound channel, and owning user (webhooks not
created by a bot user have `ownerId = none`, matching `w.user` being
falsy). -/
structure Webhook where
  id : Nat
  name : String
  channelId : Nat
  ownerId : Option Nat
deriving DecidableEq

/-- All webhooks of the guild, plus a fresh-id counter for creation. -/
structure GuildState where
  webhooks : List Webhook
  nextId : Nat

/-- The lookup predicate of `get_or_create_webhook`:
`w.name.lower() == name.lower() and w.user and w.user.id == bot_user.id`. -/
def webhookMatches (name : String) (botUserId : Nat) (w : Webhook) : Bool :=
  pyLower w.name == pyLower name && w.ownerId == some botUserId

/-- Embeds `get_or_create_webhook`: find the first bot-owned webhook in the
guild whose name matches case-insensitively; if it is bound to another
channel, edit it in place to the requested channel; if none exists, create
a new webhook with the given name in the requested channel. -/
def get_or_create_webhook (st : GuildState) (channelId : Nat) (name : String)
    (botUserId : Nat) : Webhook × GuildState :=
  match st.webhooks.find? (webhookMatches name botUserId) with
  | some w =>
    if w.channelId ≠ channelId then
      ({ w with channelId := channelId },
       { st with webhooks := (replaceFirst (webhookMatches name botUserId)
          (fun x => { x with channelId := channelId }) st.webhooks) })
    else (w, st)
  | none =>
    let w : Webhook := ⟨st.nextId, name, channelId, some botUserId⟩
    (w, ⟨st.webhooks ++ [w], st.nextId + 1⟩)

/-! ## Chunker lemmas -/

theorem head?_dropWhile_false {p : α → Bool} {l : List α} {c : α}
    (h : (l.dropWhile p).head? = some c) : p c = false := by
  induction l with
  | nil => simp [List.dropWhile] at h
  | cons x xs ih =>
    by_cases hx : p x
    · exact ih (by rwa [List.dropWhile_cons_of_pos hx] at h)
    · rw [List.dropWhile_cons_of_neg hx] at h
      simp only [List.head?_cons, Option.some.injEq] at h
      subst h
      exact Bool.eq_false_iff.mpr hx

theorem lastSpaceIdx_of_no_space {l : List Char} (h : ∀ c ∈ l, c ≠ ' ') :
    ∀ m, lastSpaceIdx l m = none := by
  induction l with
  | nil => intro m; cases m <;> rfl
  | cons c cs ih =>
    intro m
    cases m with
    | zero => rfl
    | succ n =>
      have hc : c ≠ ' ' := h c (by simp)
      have hcs := ih (fun x hx => h x (by simp [hx]))
      simp [lastSpaceIdx, hcs n, hc]

theorem lastSpaceIdx_append (l l' : List Char) (m : Nat) :
    lastSpaceIdx (l ++ l') m =
      match lastSpaceIdx l' (m - l.length) with
      | some j => some (l.length + j)
      | none => lastSpaceIdx l m := by
  induction l generalizing m with
  | nil =>
    simp only [List.nil_append, List.length_nil, Nat.sub_zero]
    cases h : lastSpaceIdx l' m with
    | some j => simp [h]
    | none => simp [h]; cases m <;> rfl
  | cons c cs ih =>
    cases m with
    | zero =>
      rw [Nat.zero_sub]
      have h0 : lastSpaceIdx l' 0 = none := by cases l' <;> rfl
      rw [h0]
      rfl
    | succ n =>
      have harith : n + 1 - (c :: cs).length = n - cs.length := by
        simp [List.length_cons]
      rw [harith]
      show (match lastSpaceIdx (cs ++ l') n with
            | some j => some (j + 1)
            | none => if c = ' ' then some 0 else none) = _
      rw [ih n]
      cases h : lastSpaceIdx l' (n - cs.length) with
      | some j =>
        simp only [List.length_cons]
        have : cs.length + j + 1 = cs.length + 1 + j := by omega
        simp [this]
      | none => rfl

theorem lastSpaceIdx_lt {l : List Char} {m i : Nat}
    (h : lastSpaceIdx l m = some i) : i < m ∧ i < l.length := by
  induction l generalizing m i with
  | nil => cases m <;> simp [lastSpaceIdx] at h
  | cons c cs ih =>
    cases m with
    | zero => simp [lastSpaceIdx] at h
    | succ n =>
      rw [show lastSpaceIdx (c :: cs) (n + 1) =
            (match lastSpaceIdx cs n with
             | some j => some (j + 1)
             | none => if c = ' ' then some 0 else none) from rfl] at h
      cases hcs : lastSpaceIdx cs n with
      | some j =>
        rw [hcs] at h
        simp only [Option.some.injEq] at h
        subst h
        have := ih hcs
        simp only [List.length_cons]
        omega
      | none =>
        rw [hcs] at h
        by_cases hc : c = ' '
        · simp [hc] at h
          subst h
          simp
        · simp [hc] at h

theorem lastSpaceIdx_space {l : List Char} {m i : Nat}
    (h : lastSpaceIdx l m = some i) : ∃ t, l.drop i = ' ' :: t := by
  induction l generalizing m i with
  | nil => cases m <;> simp [lastSpaceIdx] at h
  | cons c cs ih =>
    cases m with
    | zero => simp [lastSpaceIdx] at h
    | succ n =>
      rw [show lastSpaceIdx (c :: cs) (n + 1) =
            (match lastSpaceIdx cs n with
             | some j => some (j + 1)
             | none => if c = ' ' then some 0 else none) from rfl] at h
      cases hcs : lastSpaceIdx cs n with
      | some j =>
        rw [hcs] at h
        simp only [Option.some.injEq] at h
        subst h
        obtain ⟨t, ht⟩ := ih hcs
        exact ⟨t, by simpa using ht⟩
      | none =>
        rw [hcs] at h
        by_cases hc : c = ' '
        · simp [hc] at h
          subst hc
          subst h
          exact ⟨cs, rfl⟩
        · simp [hc] at h

theorem pyStrip_length_le (l : List Char) : (pyStrip l).length ≤ l.length := by
  unfold pyStrip
  calc ((l.dropWhile isPySpace).reverse.dropWhile isPySpace).reverse.length
      = ((l.dropWhile isPySpace).reverse.dropWhile isPySpace).length := by
        rw [List.length_reverse]
    _ ≤ (l.dropWhile isPySpace).reverse.length :=
        (List.dropWhile_suffix isPySpace).sublist.length_le
    _ = (l.dropWhile isPySpace).length := by rw [List.length_reverse]
    _ ≤ l.length := (List.dropWhile_suffix isPySpace).sublist.length_le

theorem pyStrip_cons_space (l : List Char) : pyStrip (' ' :: l) = pyStrip l := by
  unfold pyStrip
  rw [List.dropWhile_cons_of_pos (by decide)]

theorem pyStrip_decompose (l : List Char) :
    ∃ w w', l = w ++ pyStrip l ++ w' ∧
      (∀ c ∈ w, isPySpace c = true) ∧ (∀ c ∈ w', isPySpace c = true) := by
  refine ⟨l.takeWhile isPySpace,
    ((l.dropWhile isPySpace).reverse.takeWhile isPySpace).reverse, ?_, ?_, ?_⟩
  · unfold pyStrip
    conv_lhs => rw [← List.takeWhile_append_dropWhile isPySpace l]
    rw [List.append_assoc]
    congr 1
    conv_lhs => rw [← List.reverse_reverse (l.dropWhile isPySpace),
      ← List.takeWhile_append_dropWhile isPySpace (l.dropWhile isPySpace).reverse]
    rw [List.reverse_append]
  · exact fun c hc => List.mem_takeWhile_imp hc
  · intro c hc
    rw [List.mem_reverse] at hc
    exact List.mem_takeWhile_imp hc

theorem pyStrip_head?_not_space {l : List Char} {c : Char}
    (h : (pyStrip l).head? = some c) : isPySpace c = false := by
  have hsuffix : l.dropWhile isPySpace =
      pyStrip l ++ ((l.dropWhile isPySpace).reverse.takeWhile isPySpace).reverse := by
    unfold pyStrip
    conv_lhs => rw [← List.reverse_reverse (l.dropWhile isPySpace),
      ← List.takeWhile_append_dropWhile isPySpace (l.dropWhile isPySpace).reverse]
    rw [List.reverse_append]
  have hhd : (l.dropWhile isPySpace).head? = some c := by
    rw [hsuffix]
    cases hps : pyStrip l with
    | nil => rw [hps] at h; simp at h
    | cons x xs =>
      rw [hps] at h
      simp only [List.head?_cons, Option.some.injEq] at h
      subst h
      simp
  exact head?_dropWhile_false hhd

theorem chunk_next_lt (content : List Char) (h : 2000 < content.length) :
    (pyStrip (content.drop ((lastSpaceIdx content 2000).getD 2000))).length <
      content.length := by
  cases hls : lastSpaceIdx content 2000 with
  | none =>
    simp only [hls, Option.getD_none]
    calc (pyStrip (content.drop 2000)).length
        ≤ (content.drop 2000).length := pyStrip_length_le _
      _ = content.length - 2000 := content.length_drop 2000
      _ < content.length := by omega
  | some i =>
    simp only [hls, Option.getD_some]
    obtain ⟨hi2000, hilen⟩ := lastSpaceIdx_lt hls
    obtain ⟨t, ht⟩ := lastSpaceIdx_space hls
    rw [ht, pyStrip_cons_space]
    have h1 : (' ' :: t).length = content.length - i := by
      rw [← ht, content.length_drop i]
    have h2 : t.length = content.length - i - 1 := by
      simpa using congrArg (fun n => n - 1) h1
    calc (pyStrip t).length ≤ t.length := pyStrip_length_le t
      _ < content.length := by omega

theorem chunkLoopFuel_fits {content : List Char} (f : Nat)
    (h : content.length ≤ 2000) :
    chunkLoopFuel (f + 1) content = if content = [] then [] else [content] := by
  simp [chunkLoopFuel, h]

theorem chunkLoopFuel_step {content : List Char} (f : Nat)
    (h : ¬ content.length ≤ 2000) :
    chunkLoopFuel (f + 1) content =
      content.take ((lastSpaceIdx content 2000).getD 2000) ::
        chunkLoopFuel f
          (pyStrip (content.drop ((lastSpaceIdx content 2000).getD 2000))) := by
  simp [chunkLoopFuel, h]

theorem splitIndex_le (content : List Char) :
    (lastSpaceIdx content 2000).getD 2000 ≤ 2000 := by
  cases h : lastSpaceIdx content 2000 with
  | none => simp
  | some i => exact Nat.le_of_lt (by simpa using (lastSpaceIdx_lt h).1)

theorem chunkLoopFuel_congr : ∀ (f g : Nat) (content : List Char),
    content.length < f → content.length < g →
    chunkLoopFuel f content = chunkLoopFuel g content := by
  intro f
  induction f with
  | zero => intro g content hf _; omega
  | succ f ih =>
    intro g content hf hg
    cases g with
    | zero => omega
    | succ g =>
      by_cases hlen : content.length ≤ 2000
      · rw [chunkLoopFuel_fits f hlen, chunkLoopFuel_fits g hlen]
      · have hnext := chunk_next_lt content (by omega)
        rw [chunkLoopFuel_step f hlen, chunkLoopFuel_step g hlen]
        congr 1
        exact ih g _ (by omega) (by omega)

theorem chunkLoopFuel_seg_length : ∀ (f : Nat) (content : List Char),
    ∀ seg ∈ chunkLoopFuel f content, seg.length ≤ 2000 := by
  intro f
  induction f with
  | zero => intro content seg h; simp [chunkLoopFuel] at h
  | succ f ih =>
    intro content seg hseg
    by_cases hlen : content.length ≤ 2000
    · rw [chunkLoopFuel_fits f hlen] at hseg
      by_cases hnil : content = []
      · simp [hnil] at hseg
      · simp only [hnil, if_false, List.mem_singleton] at hseg
        subst hseg
        exact hlen
    · rw [chunkLoopFuel_step f hlen] at hseg
      rcases List.mem_cons.mp hseg with h | h
      · subst h
        calc (content.take ((lastSpaceIdx content 2000).getD 2000)).length
            ≤ (lastSpaceIdx content 2000).getD 2000 :=
              (content.length_take _) ▸ Nat.min_le_left _ _
          _ ≤ 2000 := splitIndex_le content
      · exact ih _ seg h

theorem chunkLoopFuel_segs_ne_nil : ∀ (f : Nat) (content : List Char),
    content.head? ≠ some ' ' →
    ∀ seg ∈ chunkLoopFuel f content, seg ≠ [] := by
  intro f
  induction f with
  | zero => intro content _ seg h; simp [chunkLoopFuel] at h
  | succ f ih =>
    intro content hhead seg hseg
    by_cases hlen : content.length ≤ 2000
    · rw [chunkLoopFuel_fits f hlen] at hseg
      by_cases hnil : content = []
      · simp [hnil] at hseg
      · simp only [hnil, if_false, List.mem_singleton] at hseg
        subst hseg
        exact hnil
    · rw [chunkLoopFuel_step f hlen] at hseg
      rcases List.mem_cons.mp hseg with h | h
      · subst h
        have hipos : 0 < (lastSpaceIdx content 2000).getD 2000 := by
          cases hls : lastSpaceIdx content 2000 with
          | none => simp
          | some i =>
            simp only [Option.getD_some]
            rcases Nat.eq_zero_or_pos i with hzero | hpos
            · subst hzero
              obtain ⟨t, ht⟩ := lastSpaceIdx_space hls
              rw [List.drop_zero] at ht
              rw [ht] at hhead
              simp at hhead
            · exact hpos
        have : 0 < (content.take ((lastSpaceIdx content 2000).getD 2000)).length := by
          rw [content.length_take]
          exact lt_min hipos (by omega)
        exact List.ne_nil_of_length_pos this
      · refine ih _ ?_ seg h
        intro hcontra
        have := pyStrip_head?_not_space hcontra
        simp [isPySpace] at this

theorem appendToLastGap_length (w : List Char) : ∀ gs : List (List Char),
    gs ≠ [] → (appendToLastGap w gs).length = gs.length := by
  intro gs
  induction gs with
  | nil => intro h; exact absurd rfl h
  | cons g gs ih =>
    intro _
    cases gs with
    | nil => rfl
    | cons g1 gs' =>
      show (g :: appendToLastGap w (g1 :: gs')).length = _
      simp [ih (by simp)]

theorem appendToLastGap_mem {w : List Char} {gs : List (List Char)}
    (hw : ∀ c ∈ w, isPySpace c = true)
    (hgs : ∀ g ∈ gs, ∀ c ∈ g, isPySpace c = true) :
    ∀ g ∈ appendToLastGap w gs, ∀ c ∈ g, isPySpace c = true := by
  induction gs with
  | nil =>
    intro g hg
    simp only [appendToLastGap, List.mem_singleton] at hg
    subst hg
    exact hw
  | cons g0 gs ih =>
    cases gs with
    | nil =>
      intro g hg
      simp only [appendToLastGap, List.mem_singleton] at hg
      subst hg
      intro c hc
      rcases List.mem_append.mp hc with h | h
      · exact hgs g0 (by simp) c h
      · exact hw c h
    | cons g1 gs' =>
      intro g hg
      rcases List.mem_cons.mp hg with h | h
      · subst h
        exact hgs g (by simp)
      · exact ih (fun g' hg' => hgs g' (by simp [hg'])) g h

theorem interleave_appendToLastGap : ∀ (ss gs : List (List Char)) (w : List Char),
    ss.length = gs.length → ss ≠ [] →
    interleave ss (appendToLastGap w gs) = interleave ss gs ++ w := by
  intro ss
  induction ss with
  | nil => intro gs w _ h; exact absurd rfl h
  | cons s ss ih =>
    intro gs w hlen _
    cases gs with
    | nil => simp at hlen
    | cons g gs =>
      cases ss with
      | nil =>
        have hgs : gs = [] := by
          cases gs with
          | nil => rfl
          | cons _ _ => simp at hlen
        subst hgs
        show interleave [s] [g ++ w] = interleave [s] [g] ++ w
        simp [interleave, List.append_assoc]
      | cons s' ss' =>
        cases gs with
        | nil => simp at hlen
        | cons g' gs' =>
          show interleave (s :: s' :: ss') (g :: appendToLastGap w (g' :: gs')) = _
          show s ++ g ++ interleave (s' :: ss') (appendToLastGap w (g' :: gs')) = _
          rw [ih (g' :: gs') w (by simpa using hlen) (by simp)]
          simp [interleave, List.append_assoc]

theorem chunkLoopFuel_decompose : ∀ (f : Nat) (content : List Char),
    content.length < f →
    ∃ gaps : List (List Char),
      gaps.length = (chunkLoopFuel f content).length ∧
      (∀ g ∈ gaps, ∀ c ∈ g, isPySpace c = true) ∧
      interleave (chunkLoopFuel f content) gaps = content := by
  intro f
  induction f with
  | zero => intro content h; omega
  | succ f ih =>
    intro content hf
    by_cases hlen : content.length ≤ 2000
    · by_cases hnil : content = []
      · subst hnil
        refine ⟨[], ?_, by simp, ?_⟩
        · rw [chunkLoopFuel_fits f (by simp)]
          simp
        · rw [chunkLoopFuel_fits f (by simp)]
          simp [interleave]
      · refine ⟨[[]], ?_, by simp, ?_⟩
        · simp [chunkLoopFuel_fits f hlen, hnil]
        · rw [chunkLoopFuel_fits f hlen]
          simp only [hnil, if_false]
          simp [interleave]
    · have hnext := chunk_next_lt content (by omega)
      obtain ⟨gaps', hglen, hgws, hgint⟩ :=
        ih (pyStrip (content.drop ((lastSpaceIdx content 2000).getD 2000)))
          (by omega)
      obtain ⟨w, w', hdec, hw, hw'⟩ :=
        pyStrip_decompose (content.drop ((lastSpaceIdx content 2000).getD 2000))
      have hcontent : content =
          content.take ((lastSpaceIdx content 2000).getD 2000) ++
            (w ++ pyStrip (content.drop ((lastSpaceIdx content 2000).getD 2000)) ++ w') := by
        conv_lhs => rw [← List.take_append_drop
          ((lastSpaceIdx content 2000).getD 2000) content]
        rw [← hdec]
      cases hch : chunkLoopFuel f
          (pyStrip (content.drop ((lastSpaceIdx content 2000).getD 2000))) with
      | nil =>
        have hRnil : pyStrip (content.drop ((lastSpaceIdx content 2000).getD 2000)) = [] := by
          rw [← hgint, hch]
          rfl
        refine ⟨[w ++ w'], ?_, ?_, ?_⟩
        · simp [chunkLoopFuel_step f hlen, hch]
        · intro g hg
          simp only [List.mem_singleton] at hg
          subst hg
          intro c hc
          rcases List.mem_append.mp hc with h | h
          exacts [hw c h, hw' c h]
        · rw [chunkLoopFuel_step f hlen, hch]
          simp only [interleave]
          conv_rhs => rw [hcontent]
          rw [hRnil]
          simp
      | cons s2 ss2 =>
        refine ⟨w :: appendToLastGap w' gaps', ?_, ?_, ?_⟩
        · rw [chunkLoopFuel_step f hlen, hch]
          have hgne : gaps' ≠ [] := by
            intro hcontra
            rw [hcontra, hch] at hglen
            simp at hglen
          simp only [List.length_cons, appendToLastGap_length w' gaps' hgne]
          rw [hglen, hch]
          simp
        · intro g hg
          rcases List.mem_cons.mp hg with h | h
          · subst h
            exact hw
          · exact appendToLastGap_mem hw' hgws g h
        · rw [chunkLoopFuel_step f hlen, hch]
          simp only [interleave]
          rw [interleave_appendToLastGap (s2 :: ss2) gaps' w'
            (by rw [hglen, hch]) (by simp)]
          rw [← hch, hgint]
          conv_rhs => rw [hcontent]
          simp [List.append_assoc]

end LlamaCord

/-- C2: after every `update_chat_history` mutation the stored history has at
most 10 entries, and whenever the appended list exceeds 10 entries the stored
result is exactly its last 10 entries in order (drop-oldest truncation). -/
theorem history_capped_at_ten (history : List LlamaCord.ChatMessage)
    (role content : String) :
    (LlamaCord.update_chat_history history role content).length ≤ 10 ∧
      (10 < (history ++ [(⟨role, content⟩ : LlamaCord.ChatMessage)]).length →
        LlamaCord.update_chat_history history role content =
          ((history ++ [(⟨role, content⟩ : LlamaCord.ChatMessage)]).reverse.take 10).reverse) := by
  unfold LlamaCord.update_chat_history
  constructor
  · by_cases h : 10 < (history ++ [(⟨role, content⟩ : LlamaCord.ChatMessage)]).length
    · simp only [h, if_true, List.length_drop]
      omega
    · simp only [h, if_false]
      omega
  · intro h
    simp only [h, if_true]
    rw [← List.rtake_eq_reverse_take_reverse, List.rtake]

/-- Witness for C2 at a concrete 11-entry history. -/
theorem history_capped_at_ten_witness :
    (LlamaCord.update_chat_history
        (List.replicate 11 (⟨"user", "x"⟩ : LlamaCord.ChatMessage)) "assistant" "y").length ≤ 10 ∧
      LlamaCord.update_chat_history
          (List.replicate 11 (⟨"user", "x"⟩ : LlamaCord.ChatMessage)) "assistant" "y" =
        ((List.replicate 11 (⟨"user", "x"⟩ : LlamaCord.ChatMessage) ++
            [(⟨"assistant", "y"⟩ : LlamaCord.ChatMessage)]).reverse.take 10).reverse :=
  ⟨(history_capped_at_ten _ _ _).1,
   (history_capped_at_ten (List.replicate 11 (⟨"user", "x"⟩ : LlamaCord.ChatMessage)) "assistant" "y").2
     (by decide)⟩

/-- C3 counterexample: the splitting loop emits an empty segment when the
content is longer than 2000 characters, begins with a space, and has no
other space among its first 2000 characters: `rfind` returns index 0 and
`content[:0]` is the empty string, which is sent as a chunk. -/
theorem chunk_segments_counterexample :
    [] ∈ LlamaCord.sendChunks (' ' :: List.replicate 2500 'a') := by
  have hnos : ∀ c ∈ List.replicate 2500 'a', c ≠ ' ' := fun c hc => by
    rw [List.eq_of_mem_replicate hc]
    decide
  have hlen : (' ' :: List.replicate 2500 'a').length = 2501 := by simp
  have hls : LlamaCord.lastSpaceIdx (' ' :: List.replicate 2500 'a') 2000 =
      some 0 := by
    rw [show (' ' :: List.replicate 2500 'a') =
      [' '] ++ List.replicate 2500 'a' from rfl]
    rw [LlamaCord.lastSpaceIdx_append]
    rw [LlamaCord.lastSpaceIdx_of_no_space hnos]
    decide
  unfold LlamaCord.sendChunks
  rw [hlen]
  rw [if_neg (by omega)]
  rw [LlamaCord.chunkLoopFuel_step 2501 (by rw [hlen]; omega)]
  rw [hls]
  simp

/-- C3 (amended): every segment produced by `send_chunked_message` has length
at most 2000; content that already fits is sent as the single segment
`[content]`; every segment after the first is nonempty; and all segments are
nonempty provided the content is nonempty and does not begin with a space. -/
theorem chunk_segments_amended (content : List Char) :
    (∀ seg ∈ LlamaCord.sendChunks content, seg.length ≤ 2000) ∧
      (content.length ≤ 2000 → LlamaCord.sendChunks content = [content]) ∧
      (∀ seg ∈ (LlamaCord.sendChunks content).tail, seg ≠ []) ∧
      (content ≠ [] → content.head? ≠ some ' ' →
        ∀ seg ∈ LlamaCord.sendChunks content, seg ≠ []) := by
  refine ⟨?_, ?_, ?_, ?_⟩
  · intro seg hseg
    unfold LlamaCord.sendChunks at hseg
    by_cases h : content.length ≤ 2000
    · rw [if_pos h] at hseg
      simp only [List.mem_singleton] at hseg
      subst hseg
      exact h
    · rw [if_neg h] at hseg
      exact LlamaCord.chunkLoopFuel_seg_length _ content seg hseg
  · intro h
    unfold LlamaCord.sendChunks
    rw [if_pos h]
  · intro seg hseg
    unfold LlamaCord.sendChunks at hseg
    by_cases h : content.length ≤ 2000
    · rw [if_pos h] at hseg
      simp at hseg
    · rw [if_neg h, LlamaCord.chunkLoopFuel_step content.length h] at hseg
      simp only [List.tail_cons] at hseg
      refine LlamaCord.chunkLoopFuel_segs_ne_nil _ _ ?_ seg hseg
      intro hcontra
      have := LlamaCord.pyStrip_head?_not_space hcontra
      simp [LlamaCord.isPySpace] at this
  · intro hne hhead seg hseg
    unfold LlamaCord.sendChunks at hseg
    by_cases h : content.length ≤ 2000
    · rw [if_pos h] at hseg
      simp only [List.mem_singleton] at hseg
      subst hseg
      exact hne
    · rw [if_neg h] at hseg
      exact LlamaCord.chunkLoopFuel_segs_ne_nil _ content hhead seg hseg

/-- Witness for C3 (amended) at the concrete content "hi". -/
theorem chunk_segments_amended_witness :
    LlamaCord.sendChunks ['h', 'i'] = [['h', 'i']] ∧
      (['h', 'i'] : List Char).length ≤ 2000 ∧ (['h', 'i'] : List Char) ≠ [] :=
  ⟨(chunk_segments_amended ['h', 'i']).2.1 (by decide), by decide,
   (chunk_segments_amended ['h', 'i']).2.2.2 (by decide) (by decide)
     ['h', 'i'] (by decide)⟩

/-- C4 counterexample: on a 2002-character content whose characters 1999 and
2000 are both spaces, the split consumes the space at index 1999 and `strip`
additionally removes the second space, so rejoining the two segments with a
single space does not reproduce the content. -/
theorem chunk_join_counterexample :
    LlamaCord.sendChunks (List.replicate 1999 'a' ++ [' ', ' ', 'b']) =
        [List.replicate 1999 'a', ['b']] ∧
      LlamaCord.joinWithSpace [List.replicate 1999 'a', ['b']] ≠
        List.replicate 1999 'a' ++ [' ', ' ', 'b'] := by
  constructor
  · have hlen : (List.replicate 1999 'a' ++ [' ', ' ', 'b']).length = 2002 := by
      simp
    have hinner : LlamaCord.lastSpaceIdx [' ', ' ', 'b'] 1 = some 0 := by decide
    have hls : LlamaCord.lastSpaceIdx
        (List.replicate 1999 'a' ++ [' ', ' ', 'b']) 2000 = some 1999 := by
      rw [LlamaCord.lastSpaceIdx_append]
      rw [List.length_replicate]
      rw [show (2000 : Nat) - 1999 = 1 by norm_num]
      rw [hinner]
    unfold LlamaCord.sendChunks
    rw [hlen]
    rw [if_neg (by omega)]
    rw [LlamaCord.chunkLoopFuel_step 2002 (by rw [hlen]; omega)]
    rw [hls]
    simp only [Option.getD_some]
    rw [List.take_left' (by simp), List.drop_left' (by simp)]
    rw [show LlamaCord.pyStrip [' ', ' ', 'b'] = ['b'] by decide]
    rw [show (2002 : Nat) = 2001 + 1 by norm_num]
    rw [LlamaCord.chunkLoopFuel_fits 2001 (by simp)]
    simp
  · intro hcontra
    have hjoin : LlamaCord.joinWithSpace [List.replicate 1999 'a', ['b']] =
        List.replicate 1999 'a' ++ [' ', 'b'] := rfl
    rw [hjoin] at hcontra
    have := List.append_cancel_left hcontra
    simp at this

/-- C4 (amended): the segments produced by `send_chunked_message` are, in
order, the content with whitespace-only gaps removed at each split point:
there is a list of whitespace-only gap strings, one following each segment,
whose interleaving with the segments reproduces the content exactly. -/
theorem chunk_reconstruction_amended (content : List Char) :
    ∃ gaps : List (List Char),
      gaps.length = (LlamaCord.sendChunks content).length ∧
        (∀ g ∈ gaps, ∀ c ∈ g, LlamaCord.isPySpace c = true) ∧
        LlamaCord.interleave (LlamaCord.sendChunks content) gaps = content := by
  unfold LlamaCord.sendChunks
  by_cases h : content.length ≤ 2000
  · refine ⟨[[]], by simp [h], by simp, ?_⟩
    rw [if_pos h]
    simp [LlamaCord.interleave]
  · rw [if_neg h]
    exact LlamaCord.chunkLoopFuel_decompose (content.length + 1) content
      (by omega)

namespace LlamaCord

theorem trivOracle_valid : ValidOracle trivOracle := by
  constructor
  · intro l hl
    cases l with
    | nil => exact absurd rfl hl
    | cons a t => simp [trivOracle]
  · intro n l
    exact List.Perm.refl l

theorem conversationRounds_chain (agentNames : List String)
    (hnodup : agentNames.Nodup) (orderFn : Nat → List String → List String)
    (hperm : ∀ k l, (orderFn k l).Perm l) :
    ∀ (turns : Nat) (lastSpeaker : String),
      List.Chain' (· ≠ ·)
        (lastSpeaker :: conversationRounds agentNames orderFn turns lastSpeaker) := by
  intro turns
  induction turns with
  | zero => intro lastSpeaker; simp [conversationRounds]
  | succ n ih =>
    intro lastSpeaker
    show List.Chain' (· ≠ ·) (lastSpeaker ::
      (orderFn n (agentNames.filter (fun name => name != lastSpeaker)) ++
        conversationRounds agentNames orderFn n
          ((orderFn n (agentNames.filter (fun name => name != lastSpeaker))).getLastD
            lastSpeaker)))
    have hperm' :
        (orderFn n (agentNames.filter (fun name => name != lastSpeaker))).Perm
          (agentNames.filter (fun name => name != lastSpeaker)) := hperm n _
    have hnodupa :
        (orderFn n (agentNames.filter (fun name => name != lastSpeaker))).Nodup :=
      hperm'.nodup_iff.mpr (hnodup.filter _)
    have hmem : ∀ x ∈ orderFn n (agentNames.filter (fun name => name != lastSpeaker)),
        x ≠ lastSpeaker := by
      intro x hx
      have hx' := hperm'.mem_iff.mp hx
      have := List.of_mem_filter hx'
      simpa [bne_iff_ne] using this
    cases havail : orderFn n (agentNames.filter (fun name => name != lastSpeaker)) with
    | nil =>
      simpa using ih lastSpeaker
    | cons x xs =>
      rw [show lastSpeaker :: ((x :: xs) ++
            conversationRounds agentNames orderFn n ((x :: xs).getLastD lastSpeaker)) =
          (lastSpeaker :: x :: xs) ++
            conversationRounds agentNames orderFn n ((x :: xs).getLastD lastSpeaker)
        from rfl]
      rw [List.chain'_append]
      refine ⟨?_, ?_, ?_⟩
      · rw [List.chain'_cons']
        constructor
        · intro y hy
          have hyx : x = y := by simpa using hy
          have hxm : x ∈
              orderFn n (agentNames.filter (fun name => name != lastSpeaker)) := by
            rw [havail]
            simp
          rw [← hyx]
          exact (hmem x hxm).symm
        · rw [havail] at hnodupa
          exact hnodupa.chain'
      · exact (List.chain'_cons'.mp (ih ((x :: xs).getLastD lastSpeaker))).2
      · intro z hz y hy
        have hlast : (lastSpeaker :: x :: xs).getLast? =
            some ((x :: xs).getLastD lastSpeaker) := by
          rw [List.getLast?_cons_cons]
          cases hxl : (x :: xs).getLast? with
          | none => simp at hxl
          | some w =>
            rw [List.getLastD_eq_getLast?, hxl]
            rfl
        rw [hlast] at hz
        have hzval : (x :: xs).getLast?.getD lastSpeaker = z := by simpa using hz
        rw [← hzval, ← List.getLastD_eq_getLast?]
        exact (List.chain'_cons'.mp (ih ((x :: xs).getLastD lastSpeaker))).1 y hy

end LlamaCord

/-- C1 counterexample: with two agents and `turns=2` in sequential order,
`start_conversation` produces the speaker sequence A, B, A — three messages,
not the five messages A, B, A, B claimed (each round's eligible set contains
only the one agent that did not just speak). -/
theorem two_agent_sequence_counterexample :
    LlamaCord.startConversation ["a", "b"] LlamaCord.trivOracle 2 false =
        Except.ok ["a", "b", "a"] ∧
      (["a", "b", "a"] : List String).length = 3 ∧
      LlamaCord.startConversation ["a", "b"] LlamaCord.trivOracle 2 false ≠
        Except.ok ["a", "b", "a", "b"] := by
  have h1 : LlamaCord.startConversation ["a", "b"] LlamaCord.trivOracle 2 false =
      Except.ok ["a", "b", "a"] := rfl
  refine ⟨h1, rfl, ?_⟩
  rw [h1]
  intro hc
  have := Except.ok.inj hc
  simp at this

/-- C1 (amended): for two distinct agents A, B with `turns=2` and sequential
order, the speaker sequence is deterministic — A, B, A — and the message
count is 3: one initial message plus one message in each of the two rounds,
because each round's eligible set excludes the previous speaker, leaving a
single agent per round. -/
theorem two_agent_sequence (a b : String) (oracle : LlamaCord.ConvOracle)
    (hab : a ≠ b) :
    LlamaCord.startConversation [a, b] oracle 2 false =
      Except.ok [a, b, a] := by
  have hfba : [a, b].filter (fun name => name != a) = [b] := by
    simp [List.filter_cons, bne_iff_ne, Ne.symm hab]
  have hfab : [a, b].filter (fun name => name != b) = [a] := by
    simp [List.filter_cons, bne_iff_ne, hab]
  show Except.ok
      (a :: LlamaCord.conversationRounds [a, b]
        (fun n l => if false then oracle.shuffle n l else l) 2 a) =
    Except.ok [a, b, a]
  rw [show LlamaCord.conversationRounds [a, b]
        (fun n l => if false then oracle.shuffle n l else l) 2 a =
      [a, b].filter (fun name => name != a) ++
        LlamaCord.conversationRounds [a, b]
          (fun n l => if false then oracle.shuffle n l else l) 1
          (([a, b].filter (fun name => name != a)).getLastD a) from rfl]
  rw [hfba]
  rw [show ([b] : List String).getLastD a = b from rfl]
  rw [show LlamaCord.conversationRounds [a, b]
        (fun n l => if false then oracle.shuffle n l else l) 1 b =
      [a, b].filter (fun name => name != b) ++
        LlamaCord.conversationRounds [a, b]
          (fun n l => if false then oracle.shuffle n l else l) 0
          (([a, b].filter (fun name => name != b)).getLastD b) from rfl]
  rw [hfab]
  rfl

/-- Witness for C1 (amended) at agents "a", "b". -/
theorem two_agent_sequence_witness :
    LlamaCord.startConversation ["a", "b"] LlamaCord.trivOracle 2 false =
      Except.ok ["a", "b", "a"] :=
  two_agent_sequence "a" "b" LlamaCord.trivOracle (by decide)

/-- C5: in every run of `start_conversation` with at least two (distinct)
agents, no two consecutive delivered messages are produced by the same
agent, for both sequential and random order: each round's eligible set
excludes the immediately preceding speaker, and within a round the eligible
agents are pairwise distinct. -/
theorem no_immediate_self_reply (agentNames : List String)
    (oracle : LlamaCord.ConvOracle) (turns : Nat) (randomOrder : Bool)
    (speakers : List String) (hvalid : LlamaCord.ValidOracle oracle)
    (hnodup : agentNames.Nodup) (hlen : 2 ≤ agentNames.length)
    (hrun : LlamaCord.startConversation agentNames oracle turns randomOrder =
      Except.ok speakers) :
    speakers.Chain' (· ≠ ·) := by
  cases agentNames with
  | nil => simp at hlen
  | cons a rest =>
    have hrun' : Except.ok
        ((if randomOrder then oracle.choose (a :: rest) else a) ::
          LlamaCord.conversationRounds (a :: rest)
            (fun n l => if randomOrder then oracle.shuffle n l else l) turns
            (if randomOrder then oracle.choose (a :: rest) else a)) =
        Except.ok speakers := hrun
    have hsp := Except.ok.inj hrun'
    rw [← hsp]
    exact LlamaCord.conversationRounds_chain (a :: rest) hnodup _
      (fun k l => by
        cases randomOrder
        · exact List.Perm.refl l
        · exact hvalid.2 k l) turns _

/-- Witness for C5 at agents "a", "b" with two turns in sequential order. -/
theorem no_immediate_self_reply_witness :
    List.Chain' (· ≠ ·) (["a", "b", "a"] : List String) :=
  no_immediate_self_reply ["a", "b"] LlamaCord.trivOracle 2 false
    ["a", "b", "a"] LlamaCord.trivOracle_valid (by decide) (by decide) rfl

/-- C6: with exactly one agent, `start_conversation` succeeds (no guarded
error) and produces exactly one message for every number of turns `T ≥ 0`
and either order: each of the `T` rounds has an empty eligible-speaker set
and contributes no message. -/
theorem single_agent_message_count (a : String) (oracle : LlamaCord.ConvOracle)
    (turns : Nat) (randomOrder : Bool) (hvalid : LlamaCord.ValidOracle oracle) :
    LlamaCord.startConversation [a] oracle turns randomOrder =
      Except.ok [a] := by
  have hfirst : (if randomOrder then oracle.choose [a] else a) = a := by
    cases randomOrder
    · rfl
    · have := hvalid.1 [a] (by simp)
      simpa using this
  have hrounds : ∀ (n : Nat) (orderFn : Nat → List String → List String),
      (∀ k l, (orderFn k l).Perm l) →
      LlamaCord.conversationRounds [a] orderFn n a = [] := by
    intro n
    induction n with
    | zero => intro orderFn _; rfl
    | succ n ih =>
      intro orderFn hperm
      show orderFn n ([a].filter (fun name => name != a)) ++
        LlamaCord.conversationRounds [a] orderFn n
          ((orderFn n ([a].filter (fun name => name != a))).getLastD a) = []
      have hfilter : [a].filter (fun name => name != a) = [] := by simp
      rw [hfilter]
      have havail : orderFn n [] = [] := (hperm n []).eq_nil
      rw [havail]
      simpa using ih orderFn hperm
  show Except.ok ((if randomOrder then oracle.choose [a] else a) ::
      LlamaCord.conversationRounds [a]
        (fun n l => if randomOrder then oracle.shuffle n l else l) turns
        (if randomOrder then oracle.choose [a] else a)) = Except.ok [a]
  rw [hfirst]
  rw [hrounds turns _ (fun k l => by
    cases randomOrder
    · exact List.Perm.refl l
    · exact hvalid.2 k l)]

/-- Witness for C6 with one agent "solo" and seven turns in random order. -/
theorem single_agent_message_count_witness :
    LlamaCord.startConversation ["solo"] LlamaCord.trivOracle 7 true =
      Except.ok ["solo"] :=
  single_agent_message_count "solo" LlamaCord.trivOracle 7 true
    LlamaCord.trivOracle_valid

namespace LlamaCord

/-! ## Registry and webhook lemmas -/

theorem replaceFirst_of_none {p : α → Bool} (f : α → α) {l : List α}
    (h : ∀ x ∈ l, p x = false) : replaceFirst p f l = l := by
  induction l with
  | nil => rfl
  | cons x xs ih =>
    show (if p x then f x :: xs else x :: replaceFirst p f xs) = x :: xs
    rw [h x (by simp), if_neg (by simp)]
    rw [ih (fun y hy => h y (by simp [hy]))]

theorem replaceFirst_append_left {p : α → Bool} (f : α → α) {l₁ : List α}
    (l₂ : List α) (h : ∀ x ∈ l₁, p x = false) :
    replaceFirst p f (l₁ ++ l₂) = l₁ ++ replaceFirst p f l₂ := by
  induction l₁ with
  | nil => rfl
  | cons x xs ih =>
    show (if p x then _ else x :: replaceFirst p f (xs ++ l₂)) = _
    rw [h x (by simp), if_neg (by simp)]
    rw [ih (fun y hy => h y (by simp [hy]))]
    rfl

theorem find?_replaceFirst (p : α → Bool) (f : α → α) (l : List α)
    (hpf : ∀ x, p (f x) = p x) :
    (replaceFirst p f l).find? p = (l.find? p).map f := by
  induction l with
  | nil => rfl
  | cons x xs ih =>
    by_cases hx : p x
    · show ((if p x then f x :: xs else _).find? p) = _
      rw [if_pos hx]
      rw [List.find?_cons_of_pos _ (by rw [hpf]; exact hx)]
      rw [List.find?_cons_of_pos _ hx]
      rfl
    · show ((if p x then _ else x :: replaceFirst p f xs).find? p) = _
      rw [if_neg hx]
      rw [List.find?_cons_of_neg _ hx]
      rw [List.find?_cons_of_neg _ hx]
      exact ih

theorem replaceFirst_replaceFirst (p : α → Bool) (f : α → α) (l : List α)
    (hpf : ∀ x, p (f x) = p x) (hff : ∀ x, p x = true → f (f x) = x) :
    replaceFirst p f (replaceFirst p f l) = l := by
  induction l with
  | nil => rfl
  | cons x xs ih =>
    by_cases hx : p x
    · show replaceFirst p f (if p x then f x :: xs else _) = x :: xs
      rw [if_pos hx]
      show (if p (f x) then f (f x) :: xs else _) = x :: xs
      rw [if_pos (by rw [hpf]; exact hx)]
      rw [hff x hx]
    · show replaceFirst p f (if p x then _ else x :: replaceFirst p f xs) = x :: xs
      rw [if_neg hx]
      show (if p x then _ else x :: replaceFirst p f (replaceFirst p f xs)) = x :: xs
      rw [if_neg hx]
      rw [ih]

theorem isUpperA_pyLowerChar (c : Char) : isUpperA (pyLowerChar c) = false := by
  unfold pyLowerChar
  by_cases h : isUpperA c = true
  · rw [if_pos h]
    unfold isUpperA at h
    simp only [Bool.and_eq_true, decide_eq_true_eq] at h
    obtain ⟨ha, hb⟩ := h
    obtain ⟨n, hn⟩ : ∃ n, c.toNat = n := ⟨c.toNat, rfl⟩
    rw [hn] at ha hb
    rw [hn]
    interval_cases n <;> decide
  · rw [if_neg h]
    exact Bool.eq_false_iff.mpr h

theorem pyLower_no_upper {s : String} {c : Char} (hc : c ∈ (pyLower s).data) :
    isUpperA c = false := by
  have hc' : c ∈ s.data.map pyLowerChar := hc
  obtain ⟨c', _, rfl⟩ := List.mem_map.mp hc'
  exact isUpperA_pyLowerChar c'

theorem hasUpper_ne_pyLower {s input : String}
    (h : ∃ c ∈ s.data, isUpperA c = true) : s ≠ pyLower input := by
  intro heq
  obtain ⟨c, hc, hup⟩ := h
  rw [heq] at hc
  rw [pyLower_no_upper hc] at hup
  exact Bool.false_ne_true hup

theorem agent_delete_eq_none {ts : List AgentTemplate} {inputName : String}
    (h : ts.find? (fun t => t.agent_name == pyLower inputName) = none) :
    agent_delete ts inputName = Except.error DeleteError.notFound := by
  unfold agent_delete
  rw [h]

theorem agent_delete_eq_some {ts : List AgentTemplate} {inputName : String}
    {u : AgentTemplate}
    (h : ts.find? (fun t => t.agent_name == pyLower inputName) = some u) :
    agent_delete ts inputName =
      Except.ok (ts.filter (fun t => t.agent_name != pyLower inputName)) := by
  unfold agent_delete
  rw [h]

end LlamaCord

/-- C7 counterexample: with one inactive template and one requested agent
the inequality `requestedAgents > countActive` holds, but `create_agents`
fails with the distinct `NoActiveTemplates` error, not
`InsufficientActiveTemplates`. -/
theorem insufficient_templates_counterexample :
    LlamaCord.countActive
        [(⟨"politics", "p", "u", false⟩ : LlamaCord.AgentTemplate)] < 1 ∧
      LlamaCord.create_agents ""
          [(⟨"politics", "p", "u", false⟩ : LlamaCord.AgentTemplate)] 1 =
        Except.error LlamaCord.SimStartError.noActiveTemplates ∧
      LlamaCord.create_agents ""
          [(⟨"politics", "p", "u", false⟩ : LlamaCord.AgentTemplate)] 1 ≠
        Except.error LlamaCord.SimStartError.insufficientActiveTemplates := by
  refine ⟨by decide, rfl, ?_⟩
  intro hc
  have hc' : (Except.error LlamaCord.SimStartError.noActiveTemplates :
      Except LlamaCord.SimStartError (List (String × String))) =
      Except.error LlamaCord.SimStartError.insufficientActiveTemplates := hc
  have := Except.error.inj hc'
  exact absurd this (by decide)

/-- C7 (amended): simulation start fails with `InsufficientActiveTemplates`
whenever the requested agent count exceeds the number of active templates
and at least one template is active; when no template is active it fails
with the distinct `NoActiveTemplates` error instead (that check runs
first, regardless of the requested count). -/
theorem insufficient_templates_amended (globalSystemPrompt : String)
    (templates : List LlamaCord.AgentTemplate) (numAgents : Nat) :
    (LlamaCord.countActive templates = 0 →
      LlamaCord.create_agents globalSystemPrompt templates numAgents =
        Except.error LlamaCord.SimStartError.noActiveTemplates) ∧
      (0 < LlamaCord.countActive templates →
        LlamaCord.countActive templates < numAgents →
        LlamaCord.create_agents globalSystemPrompt templates numAgents =
          Except.error LlamaCord.SimStartError.insufficientActiveTemplates) := by
  constructor
  · intro h
    unfold LlamaCord.countActive at h
    unfold LlamaCord.create_agents
    rw [if_pos h]
  · intro h1 h2
    unfold LlamaCord.countActive at h1 h2
    unfold LlamaCord.create_agents
    rw [if_neg (by omega), if_pos h2]

/-- Witness for C7 (amended): one active template with two requested agents
gives `InsufficientActiveTemplates`; zero active templates gives
`NoActiveTemplates`. -/
theorem insufficient_templates_amended_witness :
    LlamaCord.create_agents ""
        [(⟨"politics", "p", "u", true⟩ : LlamaCord.AgentTemplate)] 2 =
      Except.error LlamaCord.SimStartError.insufficientActiveTemplates ∧
      LlamaCord.create_agents "" [] 0 =
        Except.error LlamaCord.SimStartError.noActiveTemplates :=
  ⟨(insufficient_templates_amended ""
      [(⟨"politics", "p", "u", true⟩ : LlamaCord.AgentTemplate)] 2).2
      (by decide) (by decide),
   (insufficient_templates_amended "" [] 0).1 (by decide)⟩

/-- C9: toggling a persona that is present in the registry twice in
succession restores the registry exactly, in particular the original value
of the template's `active` flag (both lookups find the same first matching
template, whose flag is flipped twice). -/
theorem toggle_involution (templates : List LlamaCord.AgentTemplate)
    (inputName : String)
    (hmem : ∃ t ∈ templates, LlamaCord.templateMatches inputName t = true) :
    (LlamaCord.agent_toggle templates inputName).bind
      (fun ts => LlamaCord.agent_toggle ts inputName) = some templates := by
  cases hf : templates.find? (LlamaCord.templateMatches inputName) with
  | none =>
    obtain ⟨t, ht, hmt⟩ := hmem
    rw [List.find?_eq_none] at hf
    exact absurd hmt (by simpa using hf t ht)
  | some u =>
    have hpf : ∀ t : LlamaCord.AgentTemplate,
        LlamaCord.templateMatches inputName
          ({ t with active := !t.active }) =
          LlamaCord.templateMatches inputName t := fun t => rfl
    have h1 : LlamaCord.agent_toggle templates inputName =
        some (LlamaCord.replaceFirst (LlamaCord.templateMatches inputName)
          (fun t => { t with active := !t.active }) templates) := by
      unfold LlamaCord.agent_toggle
      rw [hf]
    rw [h1]
    show LlamaCord.agent_toggle
      (LlamaCord.replaceFirst (LlamaCord.templateMatches inputName)
        (fun t => { t with active := !t.active }) templates) inputName =
      some templates
    have hfr : (LlamaCord.replaceFirst (LlamaCord.templateMatches inputName)
        (fun t => { t with active := !t.active }) templates).find?
          (LlamaCord.templateMatches inputName) =
        some ({ u with active := !u.active }) := by
      rw [LlamaCord.find?_replaceFirst _ _ _ hpf, hf]
      rfl
    unfold LlamaCord.agent_toggle
    rw [hfr]
    show some (LlamaCord.replaceFirst (LlamaCord.templateMatches inputName)
      (fun t => { t with active := !t.active })
      (LlamaCord.replaceFirst (LlamaCord.templateMatches inputName)
        (fun t => { t with active := !t.active }) templates)) = some templates
    have hff : ∀ x : LlamaCord.AgentTemplate,
        LlamaCord.templateMatches inputName x = true →
        (fun t : LlamaCord.AgentTemplate => { t with active := !t.active })
          ((fun t : LlamaCord.AgentTemplate =>
            { t with active := !t.active }) x) = x := by
      intro x _
      cases x
      simp
    rw [LlamaCord.replaceFirst_replaceFirst _ _ templates hpf hff]

/-- Witness for C9 at a one-template registry. -/
theorem toggle_involution_witness :
    (LlamaCord.agent_toggle
        [(⟨"politics", "p", "u", true⟩ : LlamaCord.AgentTemplate)]
        "politics").bind
      (fun ts => LlamaCord.agent_toggle ts "politics") =
      some [(⟨"politics", "p", "u", true⟩ : LlamaCord.AgentTemplate)] :=
  toggle_involution _ _
    ⟨⟨"politics", "p", "u", true⟩, by simp, by decide⟩

/-- C10: deletion lowercases the supplied name and then requires an exact
match, while creation stores names verbatim with a case-sensitive duplicate
check.  Consequently a template whose stored name contains an uppercase
letter survives every delete call (and a registry of such templates always
reports not-found, even for the exact stored name), while a template whose
stored name is all-lowercase is deleted by any case variant of its name. -/
theorem delete_case_sensitivity (t : LlamaCord.AgentTemplate)
    (ts : List LlamaCord.AgentTemplate) (inputName : String) :
    ((∃ c ∈ t.agent_name.data, LlamaCord.isUpperA c = true) →
      (∀ res, LlamaCord.agent_delete ts inputName = Except.ok res →
        t ∈ ts → t ∈ res) ∧
      LlamaCord.agent_delete [t] inputName =
        Except.error LlamaCord.DeleteError.notFound) ∧
      (t ∈ ts → LlamaCord.pyLower inputName = t.agent_name →
        ∃ res, LlamaCord.agent_delete ts inputName = Except.ok res) ∧
      (∀ (n p a : String),
        ts.any (fun u => u.agent_name == n) = false →
        LlamaCord.agent_create ts n p a =
          Except.ok (ts ++ [⟨n, p, a, true⟩])) := by
  refine ⟨?_, ?_, ?_⟩
  · intro hup
    have hne : t.agent_name ≠ LlamaCord.pyLower inputName :=
      LlamaCord.hasUpper_ne_pyLower hup
    constructor
    · intro res hres hts
      cases hfind : ts.find? (fun u => u.agent_name == LlamaCord.pyLower inputName) with
      | none =>
        rw [LlamaCord.agent_delete_eq_none hfind] at hres
        exact absurd hres (by simp)
      | some u =>
        rw [LlamaCord.agent_delete_eq_some hfind] at hres
        have hres' := Except.ok.inj hres
        rw [← hres']
        rw [List.mem_filter]
        refine ⟨hts, ?_⟩
        simpa [bne_iff_ne] using hne
    · refine LlamaCord.agent_delete_eq_none ?_
      rw [List.find?_cons_of_neg _ (by simp [hne])]
      rfl
  · intro hts hlow
    cases hfind : ts.find? (fun u => u.agent_name == LlamaCord.pyLower inputName) with
    | none =>
      rw [List.find?_eq_none] at hfind
      have hcontra := hfind t hts
      rw [hlow] at hcontra
      simp at hcontra
    | some u => exact ⟨_, LlamaCord.agent_delete_eq_some hfind⟩
  · intro n p a hany
    unfold LlamaCord.agent_create
    rw [if_neg (by simp [hany])]

/-- Witness for C10: the uppercase-named template "Bob" cannot be deleted
even by its exact stored name, while the lowercase-named template "bob" is
deleted by the case variant "BOB"; creation with an unused name stores it
verbatim. -/
theorem delete_case_sensitivity_witness :
    LlamaCord.agent_delete
        [(⟨"Bob", "p", "u", true⟩ : LlamaCord.AgentTemplate)] "Bob" =
      Except.error LlamaCord.DeleteError.notFound ∧
      (∃ res, LlamaCord.agent_delete
        [(⟨"bob", "p", "u", true⟩ : LlamaCord.AgentTemplate)] "BOB" =
          Except.ok res) ∧
      LlamaCord.agent_create
          [(⟨"bob", "p", "u", true⟩ : LlamaCord.AgentTemplate)] "Bob" "q" "v" =
        Except.ok [⟨"bob", "p", "u", true⟩, ⟨"Bob", "q", "v", true⟩] :=
  ⟨((delete_case_sensitivity ⟨"Bob", "p", "u", true⟩
      [⟨"Bob", "p", "u", true⟩] "Bob").1
      ⟨'B', by decide, by decide⟩).2,
   (delete_case_sensitivity ⟨"bob", "p", "u", true⟩
      [⟨"bob", "p", "u", true⟩] "BOB").2.1 (by simp) (by decide),
   (delete_case_sensitivity ⟨"bob", "p", "u", true⟩
      [⟨"bob", "p", "u", true⟩] "Bob").2.2 "Bob" "q" "v" (by decide)⟩

namespace LlamaCord

theorem get_or_create_found (st : GuildState) {name : String}
    {botUserId : Nat} {w : Webhook} (ch : Nat)
    (hf : st.webhooks.find? (webhookMatches name botUserId) = some w) :
    get_or_create_webhook st ch name botUserId =
      if w.channelId ≠ ch then
        ({ w with channelId := ch },
         { st with webhooks := (replaceFirst (webhookMatches name botUserId)
            (fun x => { x with channelId := ch }) st.webhooks) })
      else (w, st) := by
  unfold get_or_create_webhook
  rw [hf]

theorem get_or_create_not_found {st : GuildState} {name : String}
    {botUserId : Nat} (ch : Nat)
    (hf : st.webhooks.find? (webhookMatches name botUserId) = none) :
    get_or_create_webhook st ch name botUserId =
      (⟨st.nextId, name, ch, some botUserId⟩,
       ⟨st.webhooks ++ [⟨st.nextId, name, ch, some botUserId⟩],
        st.nextId + 1⟩) := by
  unfold get_or_create_webhook
  rw [hf]

end LlamaCord

/-- C8: starting from a guild with no webhook matching the bot and the
identity name (case-insensitively), binding the name to channel X and then
to channel Y returns handles with the same underlying webhook id both
times; the final handle is bound to Y; exactly one live matching webhook
remains in the guild (the returned one); and exactly one webhook was
created in total.  Taking X = Y gives the repeated-call idempotence case,
X ≠ Y the rebind-without-duplication case. -/
theorem webhook_binding_unique (st : LlamaCord.GuildState) (chX chY : Nat)
    (name : String) (botUserId : Nat) (w1 w2 : LlamaCord.Webhook)
    (st1 st2 : LlamaCord.GuildState)
    (hnone : st.webhooks.find? (LlamaCord.webhookMatches name botUserId) = none)
    (h1 : LlamaCord.get_or_create_webhook st chX name botUserId = (w1, st1))
    (h2 : LlamaCord.get_or_create_webhook st1 chY name botUserId = (w2, st2)) :
    w1.id = w2.id ∧ w2.channelId = chY ∧
      st2.webhooks.filter (LlamaCord.webhookMatches name botUserId) = [w2] ∧
      st2.webhooks.length = st.webhooks.length + 1 := by
  have holdf : ∀ x ∈ st.webhooks,
      LlamaCord.webhookMatches name botUserId x = false :=
    fun x hx => Bool.eq_false_iff.mpr (List.find?_eq_none.mp hnone x hx)
  have hpw1 : LlamaCord.webhookMatches name botUserId
      ⟨st.nextId, name, chX, some botUserId⟩ = true := by
    unfold LlamaCord.webhookMatches
    simp
  rw [LlamaCord.get_or_create_not_found chX hnone] at h1
  have hw1 : w1 = ⟨st.nextId, name, chX, some botUserId⟩ :=
    ((Prod.mk.injEq _ _ _ _).mp h1).1.symm
  have hst1 : st1 = ⟨st.webhooks ++ [⟨st.nextId, name, chX, some botUserId⟩],
      st.nextId + 1⟩ :=
    ((Prod.mk.injEq _ _ _ _).mp h1).2.symm
  subst hw1
  subst hst1
  have hfind1 : (st.webhooks ++
      [(⟨st.nextId, name, chX, some botUserId⟩ : LlamaCord.Webhook)]).find?
      (LlamaCord.webhookMatches name botUserId) =
      some ⟨st.nextId, name, chX, some botUserId⟩ := by
    rw [List.find?_append, hnone, List.find?_cons_of_pos _ hpw1]
    rfl
  have h2eq := LlamaCord.get_or_create_found
    (LlamaCord.GuildState.mk (st.webhooks ++ [LlamaCord.Webhook.mk st.nextId name chX (some botUserId)]) (st.nextId + 1))
    chY hfind1
  by_cases hch : chX ≠ chY
  · rw [if_pos (by simpa using hch)] at h2eq
    rw [h2eq] at h2
    have hw2 : w2 = ⟨st.nextId, name, chY, some botUserId⟩ :=
      ((Prod.mk.injEq _ _ _ _).mp h2).1.symm
    have hst2 := ((Prod.mk.injEq _ _ _ _).mp h2).2.symm
    subst hw2
    subst hst2
    have hrepl : LlamaCord.replaceFirst
        (LlamaCord.webhookMatches name botUserId)
        (fun x => { x with channelId := chY })
        (st.webhooks ++ [⟨st.nextId, name, chX, some botUserId⟩]) =
        st.webhooks ++ [⟨st.nextId, name, chY, some botUserId⟩] := by
      rw [LlamaCord.replaceFirst_append_left _ _ holdf]
      congr 1
      show (if LlamaCord.webhookMatches name botUserId
          ⟨st.nextId, name, chX, some botUserId⟩ then _ else _) = _
      rw [if_pos hpw1]
    refine ⟨rfl, rfl, ?_, ?_⟩
    · show (LlamaCord.replaceFirst _ _ _).filter _ = _
      rw [hrepl, List.filter_append]
      rw [List.filter_eq_nil_iff.mpr (fun a ha => by rw [holdf a ha]; simp)]
      have hpw2 : LlamaCord.webhookMatches name botUserId
          ⟨st.nextId, name, chY, some botUserId⟩ = true := by
        unfold LlamaCord.webhookMatches
        simp
      simp [hpw2]
    · show (LlamaCord.replaceFirst _ _ _).length = _
      rw [hrepl]
      simp
  · rw [if_neg (by simpa using hch)] at h2eq
    rw [h2eq] at h2
    have hchy : chX = chY := by
      by_contra hc
      exact hch hc
    have hw2 : w2 = ⟨st.nextId, name, chX, some botUserId⟩ :=
      ((Prod.mk.injEq _ _ _ _).mp h2).1.symm
    have hst2 := ((Prod.mk.injEq _ _ _ _).mp h2).2.symm
    subst hw2
    subst hst2
    refine ⟨rfl, hchy ▸ rfl, ?_, by simp⟩
    rw [List.filter_append]
    rw [List.filter_eq_nil_iff.mpr (fun a ha => by rw [holdf a ha]; simp)]
    simp [hpw1]

/-- Witness for C8: an empty guild, identity name "Agent_politics", bound
first to channel 1 and then to channel 2. -/
theorem webhook_binding_unique_witness :
    (⟨0, "Agent_politics", 1, some 7⟩ : LlamaCord.Webhook).id =
        (⟨0, "Agent_politics", 2, some 7⟩ : LlamaCord.Webhook).id ∧
      (⟨0, "Agent_politics", 2, some 7⟩ : LlamaCord.Webhook).channelId = 2 ∧
      (⟨[⟨0, "Agent_politics", 2, some 7⟩], 1⟩ :
          LlamaCord.GuildState).webhooks.filter
          (LlamaCord.webhookMatches "Agent_politics" 7) =
        [⟨0, "Agent_politics", 2, some 7⟩] ∧
      (⟨[⟨0, "Agent_politics", 2, some 7⟩], 1⟩ :
          LlamaCord.GuildState).webhooks.length =
        (⟨[], 0⟩ : LlamaCord.GuildState).webhooks.length + 1 :=
  webhook_binding_unique ⟨[], 0⟩ 1 2 "Agent_politics" 7 _ _ _ _ rfl rfl rfl
